import Mathlib

/-!
Verification of the `outerspace` string utility (src/lib.rs).

A Rust `&str` is modelled as a `List Char` (its sequence of Unicode scalar
values).  Rust's `str::find`/`str::rfind` return BYTE offsets, and
`str::split_at` splits at a byte offset, panicking if the offset is not a
character boundary.  We model byte offsets with `Char.utf8Size`, and model
the possibility of a `split_at` panic by `Option`: `none` means the Rust
code panics.
-/

/-- Unicode `White_Space` property, the classification used by Rust
`char::is_whitespace`. -/
def rustIsWhitespace (c : Char) : Bool :=
  let n := c.toNat
  (decide (0x09 ≤ n) && decide (n ≤ 0x0D)) || decide (n = 0x20) ||
  decide (n = 0x85) || decide (n = 0xA0) || decide (n = 0x1680) ||
  (decide (0x2000 ≤ n) && decide (n ≤ 0x200A)) || decide (n = 0x2028) ||
  decide (n = 0x2029) || decide (n = 0x202F) || decide (n = 0x205F) ||
  decide (n = 0x3000)

/-- `is_non_whitespace` from src/lib.rs: `!char.is_whitespace()`. -/
def is_non_whitespace (c : Char) : Bool := ! rustIsWhitespace c

/-- Length in UTF-8 bytes of a string (list of scalar values). -/
def byteLen : List Char → Nat
  | [] => 0
  | c :: cs => c.utf8Size + byteLen cs

/-- Forward scan: byte offset of the first character satisfying `p`,
starting from byte offset `off`.  Models Rust `str::find` on a
char-predicate pattern. -/
def findAux (p : Char → Bool) : List Char → Nat → Option Nat
  | [], _ => none
  | c :: cs, off => if p c then some off else findAux p cs (off + c.utf8Size)

/-- Rust `s.find(p)`: byte offset of the first character satisfying `p`. -/
def strFind (p : Char → Bool) (s : List Char) : Option Nat := findAux p s 0

/-- Helper for `strRfind`: scans forward keeping the offset of the most
recent match in `acc`; the final value is the offset of the last match. -/
def rfindAux (p : Char → Bool) : List Char → Nat → Option Nat → Option Nat
  | [], _, acc => acc
  | c :: cs, off, acc =>
      rfindAux p cs (off + c.utf8Size) (if p c then some off else acc)

/-- Rust `s.rfind(p)`: byte offset of the start of the last character
satisfying `p`. -/
def strRfind (p : Char → Bool) (s : List Char) : Option Nat :=
  rfindAux p s 0 none

/-- Rust `str::split_at` at byte offset `n`.  Returns `none` exactly when
Rust panics: when `n` exceeds the byte length or falls strictly inside the
UTF-8 encoding of a character (not a char boundary). -/
def splitAt? : List Char → Nat → Option (List Char × List Char)
  | s, 0 => some ([], s)
  | [], _ + 1 => none
  | c :: cs, n + 1 =>
    if c.utf8Size ≤ n + 1 then
      match splitAt? cs (n + 1 - c.utf8Size) with
      | some (l, r) => some (c :: l, r)
      | none => none
    else none

/-- `format_wrap` from src/lib.rs.  `none` means a `split_at` call
panicked.  (Rust computes `end - start` in `usize`; its callers always pass
`start ≤ end`, and `Nat` subtraction agrees on that domain.) -/
def format_wrap (s pre suf : List Char)
    (first_non_whitespace last_non_whitespace : Option Nat) :
    Option (List Char) :=
  match first_non_whitespace, last_non_whitespace with
  | some start, some stop =>
    match splitAt? s start with
    | none => none
    | some (leading_ws, rest) =>
      match splitAt? rest (stop - start + 1) with
      | none => none
      | some (core, trailing_ws) =>
        some (leading_ws ++ pre ++ core ++ suf ++ trailing_ws)
  | some start, none =>
    match splitAt? s start with
    | none => none
    | some (leading_ws, rest) => some (leading_ws ++ pre ++ rest ++ suf)
  | none, some stop =>
    match splitAt? s (stop + 1) with
    | none => none
    | some (rest, trailing_ws) => some (pre ++ rest ++ suf ++ trailing_ws)
  | none, none => some (pre ++ s ++ suf)

/-- `wrap_non_whitespace` from src/lib.rs. -/
def wrap_non_whitespace (s pre suf : List Char) : Option (List Char) :=
  format_wrap s pre suf (strFind is_non_whitespace s)
    (strRfind is_non_whitespace s)

/-- `prefix_non_whitespace` from src/lib.rs. -/
def prefix_non_whitespace (s pre : List Char) : Option (List Char) :=
  format_wrap s pre [] (strFind is_non_whitespace s) none

/-- `suffix_non_whitespace` from src/lib.rs. -/
def suffix_non_whitespace (s suf : List Char) : Option (List Char) :=
  format_wrap s [] suf none (strRfind is_non_whitespace s)

/-- The maximal whitespace-only leading segment of a string. -/
def leadingWsOf (s : List Char) : List Char :=
  s.takeWhile (fun c => ! is_non_whitespace c)

/-- The maximal whitespace-only trailing segment of a string. -/
def trailingWsOf (s : List Char) : List Char :=
  (s.reverse.takeWhile (fun c => ! is_non_whitespace c)).reverse

/-- The last non-whitespace character of `s`, if any, occupies a single
UTF-8 byte.  On such strings (and only such) the byte arithmetic
`last + 1` in src/lib.rs lands on a character boundary. -/
def lastNonWsSafe (s : List Char) : Prop :=
  ∀ c, (s.filter is_non_whitespace).getLast? = some c → c.utf8Size = 1

/-! ## Byte-length and split lemmas -/

theorem byteLen_nil : byteLen [] = 0 := rfl

theorem byteLen_cons (c : Char) (t : List Char) :
    byteLen (c :: t) = c.utf8Size + byteLen t := rfl

theorem byteLen_append (a b : List Char) :
    byteLen (a ++ b) = byteLen a + byteLen b := by
  induction a with
  | nil => simp [byteLen_nil]
  | cons c t ih => simp [byteLen_cons, ih, Nat.add_assoc]

theorem utf8Size_eq_succ (c : Char) : ∃ m, c.utf8Size = m + 1 :=
  ⟨c.utf8Size - 1, (Nat.succ_pred_eq_of_pos c.utf8Size_pos).symm⟩

/-- Splitting exactly at the byte length of the left part always succeeds:
the start of a character is a valid boundary. -/
theorem splitAt?_byteLen (a b : List Char) :
    splitAt? (a ++ b) (byteLen a) = some (a, b) := by
  induction a with
  | nil => rw [List.nil_append, byteLen_nil]; simp [splitAt?]
  | cons c t ih =>
    obtain ⟨m, hm⟩ := utf8Size_eq_succ c
    have h1 : byteLen (c :: t) = (m + byteLen t) + 1 := by
      rw [byteLen_cons, hm]; omega
    rw [List.cons_append, h1]
    simp only [splitAt?]
    rw [if_pos (by omega)]
    have h3 : m + byteLen t + 1 - c.utf8Size = byteLen t := by omega
    rw [h3, ih]

/-- Splitting strictly inside the UTF-8 encoding of a character fails: the
offset is not a character boundary. -/
theorem splitAt?_inside (a : List Char) (d : Char) (b : List Char) (n : Nat)
    (h1 : byteLen a < n) (h2 : n < byteLen a + d.utf8Size) :
    splitAt? (a ++ d :: b) n = none := by
  induction a generalizing n with
  | nil =>
    rw [byteLen_nil] at h1 h2
    obtain ⟨k, rfl⟩ : ∃ k, n = k + 1 := ⟨n - 1, by omega⟩
    rw [List.nil_append]
    simp only [splitAt?]
    rw [if_neg (by omega)]
  | cons c t ih =>
    rw [byteLen_cons] at h1 h2
    have hpos := c.utf8Size_pos
    obtain ⟨k, rfl⟩ : ∃ k, n = k + 1 := ⟨n - 1, by omega⟩
    rw [List.cons_append]
    simp only [splitAt?]
    by_cases hc : c.utf8Size ≤ k + 1
    · rw [if_pos hc, ih (k + 1 - c.utf8Size) (by omega) (by omega)]
    · rw [if_neg hc]

/-! ## Find and rfind lemmas -/

theorem findAux_append_nomatch (p : Char → Bool) (a : List Char)
    (h : ∀ c ∈ a, p c = false) (b : List Char) (off : Nat) :
    findAux p (a ++ b) off = findAux p b (off + byteLen a) := by
  induction a generalizing off with
  | nil => simp [byteLen_nil]
  | cons c t ih =>
    have hc : p c = false := h c (by simp)
    rw [List.cons_append]
    simp only [findAux, hc, Bool.false_eq_true, if_false, List.append_eq]
    rw [ih (fun x hx => h x (by simp [hx])), byteLen_cons, ← Nat.add_assoc]

/-- Forward scan: with a whitespace-only block before the first matching
character, `find` returns the byte length of that block. -/
theorem strFind_eq (p : Char → Bool) (L : List Char) (c : Char)
    (r : List Char) (hL : ∀ a ∈ L, p a = false) (hc : p c = true) :
    strFind p (L ++ c :: r) = some (byteLen L) := by
  unfold strFind
  rw [findAux_append_nomatch p L hL]
  simp [findAux, hc]

theorem findAux_eq_none_iff (p : Char → Bool) (s : List Char) (off : Nat) :
    findAux p s off = none ↔ ∀ c ∈ s, p c = false := by
  induction s generalizing off with
  | nil => simp [findAux]
  | cons c t ih =>
    by_cases hc : p c <;> simp [findAux, hc, ih]

theorem strFind_eq_none_iff (p : Char → Bool) (s : List Char) :
    strFind p s = none ↔ ∀ c ∈ s, p c = false :=
  findAux_eq_none_iff p s 0

theorem rfindAux_nomatch (p : Char → Bool) (b : List Char)
    (h : ∀ c ∈ b, p c = false) (off : Nat) (acc : Option Nat) :
    rfindAux p b off acc = acc := by
  induction b generalizing off acc with
  | nil => rfl
  | cons c t ih =>
    have hc : p c = false := h c (by simp)
    simp only [rfindAux, hc, Bool.false_eq_true, if_neg]
    exact ih (fun x hx => h x (by simp [hx])) _ _

theorem rfindAux_append (p : Char → Bool) (a b : List Char) (off : Nat)
    (acc : Option Nat) :
    rfindAux p (a ++ b) off acc =
      rfindAux p b (off + byteLen a) (rfindAux p a off acc) := by
  induction a generalizing off acc with
  | nil => simp [rfindAux, byteLen_nil]
  | cons c t ih =>
    simp only [List.cons_append, rfindAux, byteLen_cons, List.append_eq]
    rw [ih, ← Nat.add_assoc]

/-- Backward scan: with a whitespace-only block after the last matching
character, `rfind` returns the byte length of everything before it. -/
theorem strRfind_eq (p : Char → Bool) (A : List Char) (d : Char)
    (T : List Char) (hd : p d = true) (hT : ∀ a ∈ T, p a = false) :
    strRfind p (A ++ d :: T) = some (byteLen A) := by
  unfold strRfind
  rw [rfindAux_append]
  simp only [rfindAux, hd, if_pos]
  rw [rfindAux_nomatch p T hT]
  simp

theorem rfindAux_eq_none_iff (p : Char → Bool) (s : List Char) (off : Nat)
    (acc : Option Nat) :
    rfindAux p s off acc = none ↔ acc = none ∧ ∀ c ∈ s, p c = false := by
  induction s generalizing off acc with
  | nil => simp [rfindAux]
  | cons c t ih =>
    by_cases hc : p c <;> simp [rfindAux, hc, ih]

theorem strRfind_eq_none_iff (p : Char → Bool) (s : List Char) :
    strRfind p s = none ↔ ∀ c ∈ s, p c = false := by
  unfold strRfind
  rw [rfindAux_eq_none_iff]
  simp

theorem rfindAux_lower_bound (p : Char → Bool) (s : List Char) (off b : Nat)
    (acc : Option Nat) (h : rfindAux p s off acc = some b) :
    acc = some b ∨ off ≤ b := by
  induction s generalizing off acc with
  | nil => exact Or.inl h
  | cons c t ih =>
    simp only [rfindAux] at h
    rcases ih _ _ h with h' | h'
    · by_cases hc : p c
      · simp [hc] at h'
        right; omega
      · simp [hc] at h'
        exact Or.inl h'
    · right
      have := c.utf8Size_pos
      omega

theorem findAux_le_rfindAux (p : Char → Bool) (s : List Char) (off i j : Nat)
    (hf : findAux p s off = some i) (hr : rfindAux p s off none = some j) :
    i ≤ j := by
  induction s generalizing off with
  | nil => simp [findAux] at hf
  | cons c t ih =>
    by_cases hc : p c
    · simp [findAux, hc] at hf
      simp only [rfindAux, hc, if_pos] at hr
      rcases rfindAux_lower_bound p t _ _ _ hr with h' | h'
      · simp at h'
        omega
      · have := c.utf8Size_pos
        omega
    · simp only [findAux, hc, Bool.false_eq_true, if_neg] at hf
      simp only [rfindAux, hc, Bool.false_eq_true, if_neg] at hr
      exact ih _ hf hr

/-! ## Structural decompositions -/

theorem head?_decomp {l : List Char} {c : Char} (h : l.head? = some c) :
    ∃ t, l = c :: t := by
  cases l with
  | nil => simp at h
  | cons a t =>
    simp at h
    exact ⟨t, by rw [h]⟩

theorem getLast?_decomp :
    ∀ (l : List Char) (d : Char), l.getLast? = some d → ∃ t, l = t ++ [d]
  | [], d, h => by simp at h
  | [a], d, h => by
    simp at h
    exact ⟨[], by simp [h]⟩
  | a :: b :: u, d, h => by
    rw [List.getLast?_cons_cons] at h
    obtain ⟨t, ht⟩ := getLast?_decomp (b :: u) d h
    exact ⟨a :: t, by simp [ht]⟩

/-- Every string is all-whitespace or splits off its last non-whitespace
character followed by trailing whitespace. -/
theorem decompose_right (s : List Char) :
    (∀ a ∈ s, is_non_whitespace a = false) ∨
    ∃ A d T, s = A ++ d :: T ∧ is_non_whitespace d = true ∧
      ∀ a ∈ T, is_non_whitespace a = false := by
  induction s with
  | nil => left; simp
  | cons c t ih =>
    rcases ih with h | ⟨A, d, T, rfl, hd, hT⟩
    · by_cases hc : is_non_whitespace c = true
      · right; exact ⟨[], c, t, rfl, hc, h⟩
      · left
        intro a ha
        rcases List.mem_cons.mp ha with rfl | ha
        · simpa using hc
        · exact h a ha
    · right; exact ⟨c :: A, d, T, rfl, hd, hT⟩

/-- Every string is all-whitespace or splits as
leading-whitespace ++ core ++ trailing-whitespace, where the core starts
and ends with a non-whitespace character. -/
theorem decompose_full (s : List Char) :
    (∀ a ∈ s, is_non_whitespace a = false) ∨
    ∃ L C T, s = L ++ C ++ T ∧
      (∀ a ∈ L, is_non_whitespace a = false) ∧
      (∀ a ∈ T, is_non_whitespace a = false) ∧
      (∃ c, C.head? = some c ∧ is_non_whitespace c = true) ∧
      (∃ d, C.getLast? = some d ∧ is_non_whitespace d = true) := by
  induction s with
  | nil => left; simp
  | cons c t ih =>
    by_cases hc : is_non_whitespace c = true
    · right
      rcases decompose_right t with h | ⟨A, d, T, rfl, hd, hT⟩
      · refine ⟨[], [c], t, by simp, by simp, h, ⟨c, rfl, hc⟩, ⟨c, rfl, hc⟩⟩
      · refine ⟨[], c :: A ++ [d], T, by simp, by simp, hT,
          ⟨c, by simp, hc⟩, ⟨d, ?_, hd⟩⟩
        rw [List.getLast?_concat]
    · rcases ih with h | ⟨L, C, T, hs, hL, hT, hhead, hlast⟩
      · left
        intro a ha
        rcases List.mem_cons.mp ha with rfl | ha
        · simpa using hc
        · exact h a ha
      · right
        refine ⟨c :: L, C, T, by simp [hs], ?_, hT, hhead, hlast⟩
        intro a ha
        rcases List.mem_cons.mp ha with rfl | ha
        · simpa using hc
        · exact hL a ha

/-- The last element of `filter` over a decomposed string is the core's
last character. -/
theorem filter_getLast_eq (L K T : List Char) (d : Char)
    (hT : ∀ a ∈ T, is_non_whitespace a = false)
    (hK : K.getLast? = some d) (hd : is_non_whitespace d = true) :
    ((L ++ K ++ T).filter is_non_whitespace).getLast? = some d := by
  obtain ⟨N, rfl⟩ := getLast?_decomp _ _ hK
  have hTf : T.filter is_non_whitespace = [] :=
    List.filter_eq_nil_iff.mpr (by intro a ha; simp [hT a ha])
  simp only [List.filter_append, hTf, List.append_nil, List.filter_cons, hd,
    if_pos, List.filter_nil]
  rw [show L.filter is_non_whitespace ++ (N.filter is_non_whitespace ++ [d]) =
    (L.filter is_non_whitespace ++ N.filter is_non_whitespace) ++ [d] by simp]
  exact List.getLast?_concat _

/-! ## Master splice theorems -/

/-- `wrap_non_whitespace` on a decomposed string whose last non-whitespace
character is a single UTF-8 byte: both splits land on boundaries and the
result splices `p` and `x` around the core. -/
theorem wrap_eq_of_decomp (L C T p x : List Char) (c d : Char)
    (hL : ∀ a ∈ L, is_non_whitespace a = false)
    (hT : ∀ a ∈ T, is_non_whitespace a = false)
    (hCh : C.head? = some c) (hc : is_non_whitespace c = true)
    (hCl : C.getLast? = some d) (hd : is_non_whitespace d = true)
    (hsz : d.utf8Size = 1) :
    wrap_non_whitespace (L ++ C ++ T) p x = some (L ++ p ++ C ++ x ++ T) := by
  obtain ⟨M, hM⟩ := head?_decomp hCh
  obtain ⟨N, hN⟩ := getLast?_decomp _ _ hCl
  have hfind : strFind is_non_whitespace (L ++ C ++ T) = some (byteLen L) := by
    rw [hM, show L ++ (c :: M) ++ T = L ++ c :: (M ++ T) by simp]
    exact strFind_eq _ _ _ _ hL hc
  have hrfind : strRfind is_non_whitespace (L ++ C ++ T) =
      some (byteLen L + byteLen N) := by
    rw [hN, show L ++ (N ++ [d]) ++ T = (L ++ N) ++ d :: T by simp]
    rw [strRfind_eq _ _ _ _ hd hT, byteLen_append]
  unfold wrap_non_whitespace
  rw [hfind, hrfind]
  have h2 : byteLen L + byteLen N - byteLen L + 1 = byteLen C := by
    rw [hN, byteLen_append, byteLen_cons, byteLen_nil, hsz]
    omega
  simp only [format_wrap, List.append_assoc, splitAt?_byteLen, h2]

/-- `wrap_non_whitespace` panics (returns `none`) when the last
non-whitespace character needs two or more UTF-8 bytes: the second
`split_at` offset falls inside that character. -/
theorem wrap_none_of_decomp (L C T p x : List Char) (c d : Char)
    (hL : ∀ a ∈ L, is_non_whitespace a = false)
    (hT : ∀ a ∈ T, is_non_whitespace a = false)
    (hCh : C.head? = some c) (hc : is_non_whitespace c = true)
    (hCl : C.getLast? = some d) (hd : is_non_whitespace d = true)
    (hsz : 2 ≤ d.utf8Size) :
    wrap_non_whitespace (L ++ C ++ T) p x = none := by
  obtain ⟨M, hM⟩ := head?_decomp hCh
  obtain ⟨N, hN⟩ := getLast?_decomp _ _ hCl
  have hfind : strFind is_non_whitespace (L ++ C ++ T) = some (byteLen L) := by
    rw [hM, show L ++ (c :: M) ++ T = L ++ c :: (M ++ T) by simp]
    exact strFind_eq _ _ _ _ hL hc
  have hrfind : strRfind is_non_whitespace (L ++ C ++ T) =
      some (byteLen L + byteLen N) := by
    rw [hN, show L ++ (N ++ [d]) ++ T = (L ++ N) ++ d :: T by simp]
    rw [strRfind_eq _ _ _ _ hd hT, byteLen_append]
  unfold wrap_non_whitespace
  rw [hfind, hrfind]
  have hsplit2 : splitAt? (C ++ T) (byteLen L + byteLen N - byteLen L + 1) =
      none := by
    rw [hN, show (N ++ [d]) ++ T = N ++ d :: T by simp]
    exact splitAt?_inside N d T _ (by omega) (by omega)
  simp only [format_wrap, List.append_assoc, splitAt?_byteLen, hsplit2]

/-- `wrap_non_whitespace` on an all-whitespace (or empty) string wraps the
whole string. -/
theorem wrap_eq_all_ws (s p x : List Char)
    (h : ∀ a ∈ s, is_non_whitespace a = false) :
    wrap_non_whitespace s p x = some (p ++ s ++ x) := by
  unfold wrap_non_whitespace
  rw [(strFind_eq_none_iff _ _).mpr h, (strRfind_eq_none_iff _ _).mpr h]
  simp [format_wrap]

/-- `prefix_non_whitespace` with a non-whitespace character present: the
single split happens at a character start and always succeeds. -/
theorem prefix_eq_of_decomp (L R p : List Char) (c : Char)
    (hL : ∀ a ∈ L, is_non_whitespace a = false)
    (hc : is_non_whitespace c = true) :
    prefix_non_whitespace (L ++ c :: R) p = some (L ++ p ++ c :: R) := by
  unfold prefix_non_whitespace
  rw [strFind_eq _ _ _ _ hL hc]
  simp only [format_wrap, splitAt?_byteLen, List.append_nil, List.append_assoc]

/-- `prefix_non_whitespace` on an all-whitespace (or empty) string. -/
theorem prefix_eq_all_ws (s p : List Char)
    (h : ∀ a ∈ s, is_non_whitespace a = false) :
    prefix_non_whitespace s p = some (p ++ s) := by
  unfold prefix_non_whitespace
  rw [(strFind_eq_none_iff _ _).mpr h]
  simp [format_wrap]

/-- `suffix_non_whitespace` when the last non-whitespace character is a
single UTF-8 byte. -/
theorem suffix_eq_of_decomp (A T x : List Char) (d : Char)
    (hd : is_non_whitespace d = true)
    (hT : ∀ a ∈ T, is_non_whitespace a = false)
    (hsz : d.utf8Size = 1) :
    suffix_non_whitespace (A ++ d :: T) x = some (A ++ [d] ++ x ++ T) := by
  unfold suffix_non_whitespace
  rw [strRfind_eq _ _ _ _ hd hT]
  have h1 : byteLen A + 1 = byteLen (A ++ [d]) := by
    rw [byteLen_append, byteLen_cons, byteLen_nil, hsz]
  have h2 : A ++ d :: T = (A ++ [d]) ++ T := by simp
  simp only [format_wrap, h1, h2, splitAt?_byteLen]
  simp

/-- `suffix_non_whitespace` panics (returns `none`) when the last
non-whitespace character needs two or more UTF-8 bytes. -/
theorem suffix_none_of_decomp (A T x : List Char) (d : Char)
    (hd : is_non_whitespace d = true)
    (hT : ∀ a ∈ T, is_non_whitespace a = false)
    (hsz : 2 ≤ d.utf8Size) :
    suffix_non_whitespace (A ++ d :: T) x = none := by
  unfold suffix_non_whitespace
  rw [strRfind_eq _ _ _ _ hd hT]
  have hsp : splitAt? (A ++ d :: T) (byteLen A + 1) = none :=
    splitAt?_inside A d T _ (by omega) (by omega)
  simp only [format_wrap, hsp]

/-- `suffix_non_whitespace` on an all-whitespace (or empty) string. -/
theorem suffix_eq_all_ws (s x : List Char)
    (h : ∀ a ∈ s, is_non_whitespace a = false) :
    suffix_non_whitespace s x = some (s ++ x) := by
  unfold suffix_non_whitespace
  rw [(strRfind_eq_none_iff _ _).mpr h]
  simp [format_wrap]

/-! ## Whitespace-run lemmas -/

theorem takeWhile_all_block (f : Char → Bool) (L : List Char)
    (h : ∀ a ∈ L, f a = true) (c : Char) (hc : f c = false) (r : List Char) :
    (L ++ c :: r).takeWhile f = L := by
  induction L with
  | nil => simp [List.takeWhile_cons, hc]
  | cons a t ih =>
    have ha : f a = true := h a (by simp)
    simp [List.takeWhile_cons, ha, ih (fun b hb => h b (by simp [hb]))]

theorem leadingWsOf_eq (L : List Char) (c : Char) (r : List Char)
    (hL : ∀ a ∈ L, is_non_whitespace a = false)
    (hc : is_non_whitespace c = true) :
    leadingWsOf (L ++ c :: r) = L := by
  unfold leadingWsOf
  exact takeWhile_all_block _ L (fun a ha => by simp [hL a ha]) c (by simp [hc]) r

theorem trailingWsOf_eq (A : List Char) (d : Char) (T : List Char)
    (hd : is_non_whitespace d = true)
    (hT : ∀ a ∈ T, is_non_whitespace a = false) :
    trailingWsOf (A ++ d :: T) = T := by
  unfold trailingWsOf
  rw [show (A ++ d :: T).reverse = T.reverse ++ d :: A.reverse by simp]
  rw [takeWhile_all_block _ T.reverse
    (fun a ha => by simp [hT a (List.mem_reverse.mp ha)]) d (by simp [hd])
    A.reverse]
  simp

/-! ## The claims -/

/-- C1: the spec declares all three operations total for every input,
including multi-byte Unicode.  The code violates this: `split_at` is
called at `last + 1`, a byte offset that is a character boundary only
when the last non-whitespace character occupies one UTF-8 byte.  On
s = "\u{e9}" (two bytes), `wrap_non_whitespace` and
`suffix_non_whitespace` panic (modelled as `none`), while
`prefix_non_whitespace` — whose only split is at a character start —
never panics. -/
theorem C1_totality_violated :
    wrap_non_whitespace [Char.ofNat 0xE9] ['<'] ['>'] = none ∧
    suffix_non_whitespace [Char.ofNat 0xE9] ['!'] = none ∧
    prefix_non_whitespace [Char.ofNat 0xE9] ['*'] =
      some ['*', Char.ofNat 0xE9] := by
  decide

/-- C2 counterexample: for s = "\u{e9}" the decomposition is L = "",
C = "\u{e9}", T = "", so the claim demands the result
"(" ++ "\u{e9}" ++ ")"; the code panics instead. -/
theorem C2_counterexample :
    wrap_non_whitespace [Char.ofNat 0xE9] ['('] [')'] ≠
      some (['('] ++ [Char.ofNat 0xE9] ++ [')']) := by
  decide

/-- C2 (amended): whenever s = L ++ C ++ T with L and T whitespace-only,
C running from the first to the last non-whitespace character, and that
last character a single UTF-8 byte, `wrap_non_whitespace s p x`
returns L ++ p ++ C ++ x ++ T verbatim. -/
theorem C2_wrap_splices (s L C T p x : List Char) (c d : Char)
    (hs : s = L ++ C ++ T)
    (hL : ∀ a ∈ L, is_non_whitespace a = false)
    (hT : ∀ a ∈ T, is_non_whitespace a = false)
    (hCh : C.head? = some c) (hc : is_non_whitespace c = true)
    (hCl : C.getLast? = some d) (hd : is_non_whitespace d = true)
    (hsz : d.utf8Size = 1) :
    wrap_non_whitespace s p x = some (L ++ p ++ C ++ x ++ T) := by
  subst hs
  exact wrap_eq_of_decomp L C T p x c d hL hT hCh hc hCl hd hsz

theorem C2_witness :
    wrap_non_whitespace ['\n', 'a', 'b', ' '] ['<'] ['>'] =
      some (['\n'] ++ ['<'] ++ ['a', 'b'] ++ ['>'] ++ [' ']) :=
  C2_wrap_splices ['\n', 'a', 'b', ' '] ['\n'] ['a', 'b'] [' '] ['<'] ['>']
    'a' 'b' (by decide) (by decide) (by decide) (by decide) (by decide)
    (by decide) (by decide) (by decide)

/-- C3: `prefix_non_whitespace` inserts the prefix exactly once at the
first non-whitespace character, preserving everything else verbatim;
when no non-whitespace character exists the result is p ++ s.  This holds
for every input: the only split is at a character start. -/
theorem C3_prefix_insertion (s L R p : List Char) (c : Char) :
    (s = L ++ c :: R → (∀ a ∈ L, is_non_whitespace a = false) →
      is_non_whitespace c = true →
      prefix_non_whitespace s p = some (L ++ p ++ c :: R)) ∧
    ((∀ a ∈ s, is_non_whitespace a = false) →
      prefix_non_whitespace s p = some (p ++ s)) := by
  constructor
  · rintro rfl hL hc
    exact prefix_eq_of_decomp L R p c hL hc
  · intro h
    exact prefix_eq_all_ws s p h

theorem C3_witness :
    prefix_non_whitespace ['\n', 'a', ' '] ['*'] =
      some (['\n'] ++ ['*'] ++ 'a' :: [' ']) ∧
    prefix_non_whitespace [' '] ['*'] = some (['*'] ++ [' ']) :=
  ⟨(C3_prefix_insertion ['\n', 'a', ' '] ['\n'] [' '] ['*'] 'a').1
      (by decide) (by decide) (by decide),
   (C3_prefix_insertion [' '] [] [] ['*'] 'a').2 (by decide)⟩

/-- C4 counterexample: for s = "\u{e9}" the claim demands
"\u{e9}" ++ "**"; the code panics because `last + 1` = 1 falls inside the
two-byte character. -/
theorem C4_counterexample :
    suffix_non_whitespace [Char.ofNat 0xE9] ['*', '*'] ≠
      some ([Char.ofNat 0xE9] ++ ['*', '*']) := by
  decide

/-- C4 (amended): `suffix_non_whitespace` inserts the suffix exactly once
immediately after the last non-whitespace character — provided that
character is a single UTF-8 byte (otherwise the code panics); with no
non-whitespace character the result is s ++ x. -/
theorem C4_suffix_insertion (s A T x : List Char) (d : Char) :
    (s = A ++ d :: T → is_non_whitespace d = true →
      (∀ a ∈ T, is_non_whitespace a = false) → d.utf8Size = 1 →
      suffix_non_whitespace s x = some (A ++ [d] ++ x ++ T)) ∧
    ((∀ a ∈ s, is_non_whitespace a = false) →
      suffix_non_whitespace s x = some (s ++ x)) := by
  constructor
  · rintro rfl hd hT hsz
    exact suffix_eq_of_decomp A T x d hd hT hsz
  · intro h
    exact suffix_eq_all_ws s x h

theorem C4_witness :
    suffix_non_whitespace ['a', '\n', 'b', ' '] ['*'] =
      some (['a', '\n'] ++ ['b'] ++ ['*'] ++ [' ']) ∧
    suffix_non_whitespace [' '] ['*'] = some ([' '] ++ ['*']) :=
  ⟨(C4_suffix_insertion ['a', '\n', 'b', ' '] ['a', '\n'] [' '] ['*'] 'b').1
      (by decide) (by decide) (by decide) (by decide),
   (C4_suffix_insertion [' '] [] [] ['*'] 'b').2 (by decide)⟩

/-- C5: on an empty or all-whitespace string, `wrap_non_whitespace`
wraps the whole string: the result is p ++ s ++ x. -/
theorem C5_wrap_all_whitespace (s p x : List Char)
    (h : ∀ a ∈ s, is_non_whitespace a = false) :
    wrap_non_whitespace s p x = some (p ++ s ++ x) :=
  wrap_eq_all_ws s p x h

theorem C5_witness :
    wrap_non_whitespace [] ['<'] ['>'] = some (['<'] ++ [] ++ ['>']) ∧
    wrap_non_whitespace [' ', ' ', '\n', ' '] ['<'] ['>'] =
      some (['<'] ++ [' ', ' ', '\n', ' '] ++ ['>']) :=
  ⟨C5_wrap_all_whitespace [] ['<'] ['>'] (by decide),
   C5_wrap_all_whitespace [' ', ' ', '\n', ' '] ['<'] ['>'] (by decide)⟩

/-- C6 counterexample: wrapping "\u{e9}" with empty markers panics rather
than returning the string unchanged, so empty-marker wrapping is not the
identity on every string. -/
theorem C6_counterexample :
    wrap_non_whitespace [Char.ofNat 0xE9] [] [] ≠
      some [Char.ofNat 0xE9] := by
  decide

/-- C6 (amended): wrapping with empty prefix and suffix is the identity on
every string that is empty, all-whitespace, or whose last non-whitespace
character is a single UTF-8 byte; on the remaining strings the code
panics. -/
theorem C6_wrap_empty_identity (s : List Char) (h : lastNonWsSafe s) :
    wrap_non_whitespace s [] [] = some s := by
  rcases decompose_full s with
    hws | ⟨L, C, T, rfl, hL, hT, ⟨c, hCh, hc⟩, ⟨d, hCl, hd⟩⟩
  · rw [wrap_eq_all_ws s [] [] hws]
    simp
  · have hsz : d.utf8Size = 1 :=
      h d (filter_getLast_eq L C T d hT hCl hd)
    rw [wrap_eq_of_decomp L C T [] [] c d hL hT hCh hc hCl hd hsz]
    simp

theorem C6_witness :
    wrap_non_whitespace ['\n', 'a', 'b', '\n'] [] [] =
      some ['\n', 'a', 'b', '\n'] :=
  C6_wrap_empty_identity ['\n', 'a', 'b', '\n'] (by
    intro c hc
    rw [show ((['\n', 'a', 'b', '\n'].filter is_non_whitespace).getLast? :
      Option Char) = some 'b' from by decide] at hc
    injection hc with h
    rw [← h]
    decide)

/-- C7 counterexample: a whitespace-bearing marker relocates whitespace:
wrapping "a" with prefix " " yields " a", whose maximal whitespace-only
leading run (" ") differs from that of "a" (empty).  So the property does
not hold for every prefix and suffix. -/
theorem C7_counterexample :
    wrap_non_whitespace ['a'] [' '] [] = some [' ', 'a'] ∧
    leadingWsOf [' ', 'a'] ≠ leadingWsOf ['a'] := by
  decide

/-- C7 (amended): when s contains a non-whitespace character, its last
non-whitespace character is a single UTF-8 byte, p is empty or starts
with a non-whitespace character, and x is empty or ends with a
non-whitespace character, then the wrap result exists and its maximal
whitespace-only leading and trailing runs equal those of s. -/
theorem C7_ws_runs_preserved (s p x : List Char)
    (hne : ∃ a ∈ s, is_non_whitespace a = true)
    (hsafe : lastNonWsSafe s)
    (hp : ∀ q, p.head? = some q → is_non_whitespace q = true)
    (hx : ∀ q, x.getLast? = some q → is_non_whitespace q = true) :
    ∃ r, wrap_non_whitespace s p x = some r ∧
      leadingWsOf r = leadingWsOf s ∧ trailingWsOf r = trailingWsOf s := by
  rcases decompose_full s with
    hws | ⟨L, C, T, rfl, hL, hT, ⟨c, hCh, hc⟩, ⟨d, hCl, hd⟩⟩
  · exfalso
    obtain ⟨a, ha, han⟩ := hne
    rw [hws a ha] at han
    cases han
  · have hsz : d.utf8Size = 1 :=
      hsafe d (filter_getLast_eq L C T d hT hCl hd)
    refine ⟨L ++ p ++ C ++ x ++ T,
      wrap_eq_of_decomp L C T p x c d hL hT hCh hc hCl hd hsz, ?_, ?_⟩
    · obtain ⟨M, rfl⟩ := head?_decomp hCh
      have hLs : leadingWsOf (L ++ (c :: M) ++ T) = L := by
        rw [show L ++ (c :: M) ++ T = L ++ c :: (M ++ T) by simp]
        exact leadingWsOf_eq L c _ hL hc
      rw [hLs]
      cases p with
      | nil =>
        rw [show L ++ [] ++ (c :: M) ++ x ++ T = L ++ c :: (M ++ x ++ T)
          by simp]
        exact leadingWsOf_eq L c _ hL hc
      | cons q p' =>
        have hq : is_non_whitespace q = true := hp q rfl
        rw [show L ++ (q :: p') ++ (c :: M) ++ x ++ T =
          L ++ q :: (p' ++ (c :: M) ++ x ++ T) by simp]
        exact leadingWsOf_eq L q _ hL hq
    · obtain ⟨N, rfl⟩ := getLast?_decomp _ _ hCl
      have hTs : trailingWsOf (L ++ (N ++ [d]) ++ T) = T := by
        rw [show L ++ (N ++ [d]) ++ T = (L ++ N) ++ d :: T by simp]
        exact trailingWsOf_eq (L ++ N) d T hd hT
      rw [hTs]
      induction x using List.reverseRecOn with
      | nil =>
        rw [show L ++ p ++ (N ++ [d]) ++ [] ++ T =
          (L ++ p ++ N) ++ d :: T by simp]
        exact trailingWsOf_eq (L ++ p ++ N) d T hd hT
      | append_singleton x' q _ =>
        have hq : is_non_whitespace q = true :=
          hx q (by rw [List.getLast?_concat])
        rw [show L ++ p ++ (N ++ [d]) ++ (x' ++ [q]) ++ T =
          (L ++ p ++ N ++ d :: x') ++ q :: T by simp]
        exact trailingWsOf_eq (L ++ p ++ N ++ d :: x') q T hq hT

theorem C7_witness :
    ∃ r, wrap_non_whitespace ['\n', 'a', ' '] ['<'] ['>'] = some r ∧
      leadingWsOf r = leadingWsOf ['\n', 'a', ' '] ∧
      trailingWsOf r = trailingWsOf ['\n', 'a', ' '] :=
  C7_ws_runs_preserved ['\n', 'a', ' '] ['<'] ['>']
    ⟨'a', by decide, by decide⟩
    (by
      intro c hc
      rw [show (((['\n', 'a', ' '] : List Char).filter
        is_non_whitespace).getLast? : Option Char) = some 'a' from by decide]
        at hc
      injection hc with h
      rw [← h]
      decide)
    (by
      intro q hq
      rw [show ((['<'] : List Char).head? : Option Char) = some '<'
        from by decide] at hq
      injection hq with h
      rw [← h]
      decide)
    (by
      intro q hq
      rw [show ((['>'] : List Char).getLast? : Option Char) = some '>'
        from by decide] at hq
      injection hq with h
      rw [← h]
      decide)

/-- C8: the two scans of the boundary finder agree on presence; both are
absent exactly when every character is whitespace (including the empty
string); when both are present the first offset is at most the last. -/
theorem C8_boundary_pair (s : List Char) :
    ((strFind is_non_whitespace s).isSome ↔
      (strRfind is_non_whitespace s).isSome) ∧
    (strFind is_non_whitespace s = none ↔
      ∀ a ∈ s, is_non_whitespace a = false) ∧
    (strRfind is_non_whitespace s = none ↔
      ∀ a ∈ s, is_non_whitespace a = false) ∧
    (∀ i j, strFind is_non_whitespace s = some i →
      strRfind is_non_whitespace s = some j → i ≤ j) := by
  refine ⟨?_, strFind_eq_none_iff _ _, strRfind_eq_none_iff _ _, ?_⟩
  · rw [Option.isSome_iff_ne_none, Option.isSome_iff_ne_none]
    constructor <;> intro h h'
    · exact h ((strFind_eq_none_iff _ _).mpr
        ((strRfind_eq_none_iff _ _).mp h'))
    · exact h ((strRfind_eq_none_iff _ _).mpr
        ((strFind_eq_none_iff _ _).mp h'))
  · intro i j hi hj
    exact findAux_le_rfindAux _ s 0 i j hi hj

theorem C8_witness : (0 : Nat) ≤ 2 :=
  (C8_boundary_pair ['a', ' ', 'b']).2.2.2 0 2 (by decide) (by decide)

/-- C9: wrapping is not idempotent: wrapping "a" in angle markers and
wrapping the result again nests the markers instead of reaching a fixed
point. -/
theorem C9_not_idempotent :
    wrap_non_whitespace ['a'] ['<'] ['>'] = some ['<', 'a', '>'] ∧
    wrap_non_whitespace ['<', 'a', '>'] ['<'] ['>'] =
      some ['<', '<', 'a', '>', '>'] ∧
    some ['<', '<', 'a', '>', '>'] ≠ some ['<', 'a', '>'] := by
  decide

/-- C10 counterexample: on s = "\u{e9}", `prefix_non_whitespace`
succeeds while `wrap_non_whitespace` with empty suffix panics, so the two
computations do not have identical observable outcomes. -/
theorem C10_counterexample :
    prefix_non_whitespace [Char.ofNat 0xE9] ['-'] =
      some ['-', Char.ofNat 0xE9] ∧
    wrap_non_whitespace [Char.ofNat 0xE9] ['-'] [] = none := by
  decide

/-- C10 (amended): `suffix_non_whitespace s x` always has the same
observable outcome as `wrap_non_whitespace s [] x`, panics included;
`prefix_non_whitespace s p` agrees with `wrap_non_whitespace s p []`
whenever the last non-whitespace character of s (if any) is a single
UTF-8 byte — otherwise wrap panics while the prefix operation succeeds. -/
theorem C10_one_sided_agreement (s p x : List Char) :
    suffix_non_whitespace s x = wrap_non_whitespace s [] x ∧
    (lastNonWsSafe s →
      prefix_non_whitespace s p = wrap_non_whitespace s p []) := by
  constructor
  · rcases decompose_full s with
      hws | ⟨L, C, T, rfl, hL, hT, ⟨c, hCh, hc⟩, ⟨d, hCl, hd⟩⟩
    · rw [wrap_eq_all_ws s [] x hws, suffix_eq_all_ws s x hws]
      simp
    · by_cases hsz : d.utf8Size = 1
      · obtain ⟨N, hN⟩ := getLast?_decomp _ _ hCl
        rw [wrap_eq_of_decomp L C T [] x c d hL hT hCh hc hCl hd hsz]
        rw [hN, show L ++ (N ++ [d]) ++ T = (L ++ N) ++ d :: T by simp]
        rw [suffix_eq_of_decomp (L ++ N) T x d hd hT hsz]
        simp
      · have hsz2 : 2 ≤ d.utf8Size := by
          have := d.utf8Size_pos
          omega
        obtain ⟨N, hN⟩ := getLast?_decomp _ _ hCl
        rw [wrap_none_of_decomp L C T [] x c d hL hT hCh hc hCl hd hsz2]
        rw [hN, show L ++ (N ++ [d]) ++ T = (L ++ N) ++ d :: T by simp]
        exact suffix_none_of_decomp (L ++ N) T x d hd hT hsz2
  · intro hsafe
    rcases decompose_full s with
      hws | ⟨L, C, T, rfl, hL, hT, ⟨c, hCh, hc⟩, ⟨d, hCl, hd⟩⟩
    · rw [wrap_eq_all_ws s p [] hws, prefix_eq_all_ws s p hws]
      simp
    · have hsz : d.utf8Size = 1 :=
        hsafe d (filter_getLast_eq L C T d hT hCl hd)
      rw [wrap_eq_of_decomp L C T p [] c d hL hT hCh hc hCl hd hsz]
      obtain ⟨M, hM⟩ := head?_decomp hCh
      rw [hM, show L ++ (c :: M) ++ T = L ++ c :: (M ++ T) by simp]
      rw [prefix_eq_of_decomp L (M ++ T) p c hL hc]
      simp

theorem C10_witness :
    prefix_non_whitespace ['\n', 'a', ' '] ['*'] =
      wrap_non_whitespace ['\n', 'a', ' '] ['*'] [] :=
  (C10_one_sided_agreement ['\n', 'a', ' '] ['*'] []).2 (by
    intro c hc
    rw [show (((['\n', 'a', ' '] : List Char).filter
      is_non_whitespace).getLast? : Option Char) = some 'a' from by decide]
      at hc
    injection hc with h
    rw [← h]
    decide)

/-- The embedding reproduces the `wrap_works` test of src/lib.rs. -/
theorem rust_tests_wrap_works :
    wrap_non_whitespace "".toList "<".toList ">".toList =
      some "<>".toList ∧
    wrap_non_whitespace "  \n ".toList "<".toList ">".toList =
      some "<  \n >".toList ∧
    wrap_non_whitespace "cosy".toList "<".toList ">".toList =
      some "<cosy>".toList ∧
    wrap_non_whitespace "cosy matthew".toList "<".toList ">".toList =
      some "<cosy matthew>".toList ∧
    wrap_non_whitespace "\n \ncosy \nmatthew\n \n".toList "<".toList
      ">".toList = some "\n \n<cosy \nmatthew>\n \n".toList := by
  decide

/-- The embedding reproduces the `prefix_works` test of src/lib.rs. -/
theorem rust_tests_prefix_works :
    prefix_non_whitespace "".toList "**".toList = some "**".toList ∧
    prefix_non_whitespace "  \n ".toList "**".toList =
      some "**  \n ".toList ∧
    prefix_non_whitespace "emboldened".toList "**".toList =
      some "**emboldened".toList ∧
    prefix_non_whitespace "emboldened matthew".toList "**".toList =
      some "**emboldened matthew".toList ∧
    prefix_non_whitespace "\n \nemboldened \nmatthew".toList "**".toList =
      some "\n \n**emboldened \nmatthew".toList := by
  decide

/-- The embedding reproduces the `suffix_works` test of src/lib.rs. -/
theorem rust_tests_suffix_works :
    suffix_non_whitespace "".toList "**".toList = some "**".toList ∧
    suffix_non_whitespace "  \n ".toList "**".toList =
      some "  \n **".toList ∧
    suffix_non_whitespace "emboldened".toList "**".toList =
      some "emboldened**".toList ∧
    suffix_non_whitespace "emboldened matthew".toList "**".toList =
      some "emboldened matthew**".toList ∧
    suffix_non_whitespace "emboldened \nmatthew\n \n".toList "**".toList =
      some "emboldened \nmatthew**\n \n".toList := by
  decide
